import Mathlib

/-!
Shallow embedding of the crlf line-ending tool (src/lib.rs).

Byte streams are modelled as `List Nat` (one `Nat` per byte).  The
`BufRead::read_until(LF, ..)` loop that both `CrlfStat::measure_file` and
`convert_to` are built on is modelled by `chunks`, which splits the input
into the successive buffers the loop sees: each buffer runs up to and
including the next `LF` byte, and a final buffer with no `LF` is the
unterminated trailing fragment.
-/

namespace Crlf

/-- Byte constant `CR = 0x0D` from src/lib.rs. -/
def CR : Nat := 13

/-- Byte constant `LF = 0x0A` from src/lib.rs. -/
def LF : Nat := 10

/-- The `LineEnding` enum from src/lib.rs. -/
inductive LineEnding where
  | CRLF
  | LF
  deriving DecidableEq, Repr

/-- The `CrlfStat` struct from src/lib.rs: two unsigned counters. -/
structure CrlfStat where
  lf : Nat
  crlf : Nat
  deriving DecidableEq, Repr

/-- The constructor `CrlfStat::new`. -/
def CrlfStat.new : CrlfStat := ⟨0, 0⟩

/-- The query `CrlfStat::is_pure`: pure CRLF iff `lf == 0 && crlf != 0`, pure LF iff
`lf != 0 && crlf == 0`, otherwise `None`. -/
def CrlfStat.is_pure (s : CrlfStat) : Option LineEnding :=
  if s.lf = 0 ∧ s.crlf ≠ 0 then some LineEnding.CRLF
  else if s.lf ≠ 0 ∧ s.crlf = 0 then some LineEnding.LF
  else none

/-- The successive buffers produced by the `read_until(LF, ..)` loop: each
chunk extends up to and including the next `LF`; a trailing chunk without
`LF` is the final unterminated fragment.  `chunks S = []` exactly when the
first read returns `0` bytes. -/
def chunks : List Nat → List (List Nat)
  | [] => []
  | b :: rest =>
    if b = LF then
      [LF] :: chunks rest
    else
      match chunks rest with
      | [] => [[b]]
      | c :: cs => (b :: c) :: cs

/-- The test `buf.len() >= 2 && buf[buf.len() - 2] == CR` from
`CrlfStat::measure_file`. -/
def isCrlfChunk (buf : List Nat) : Bool :=
  decide (2 ≤ buf.length) && (buf[buf.length - 2]? == some CR)

/-- One iteration of the counting loop in `CrlfStat::measure_file`. -/
def measureChunk (stat : CrlfStat) (buf : List Nat) : CrlfStat :=
  if isCrlfChunk buf then
    { stat with crlf := stat.crlf + 1 }
  else
    { stat with lf := stat.lf + 1 }

/-- The function `CrlfStat::measure_file` on a fully available stream (no read error). -/
def CrlfStat.measure_file (source : List Nat) : CrlfStat :=
  (chunks source).foldl measureChunk CrlfStat.new

/-- The bytes written for a line terminator: `CRLF_BUF` / `LF_BUF`. -/
def endingBytes : LineEnding → List Nat
  | LineEnding.CRLF => [CR, LF]
  | LineEnding.LF => [LF]

/-- The stripping step of `convert_to`: pop the trailing `LF`, then pop a
trailing `CR` if present.  (In the source this runs only when the buffer
ends in `LF`.) -/
def stripEnding (buf : List Nat) : List Nat :=
  let b1 := buf.dropLast
  if b1.getLast? = some CR then b1.dropLast else b1

/-- One iteration of the rewriting loop in `convert_to`: the bytes written
to the sink for one buffer. -/
def convertChunk (ending : LineEnding) (buf : List Nat) : List Nat :=
  if buf.getLast? = some LF then
    stripEnding buf ++ endingBytes ending
  else
    buf

/-- The function `convert_to` on a fully available stream with an infallible sink: the
bytes written to the destination. -/
def convert_to (source : List Nat) (ending : LineEnding) : List Nat :=
  ((chunks source).map (convertChunk ending)).flatten

/-- The function `CrlfStat::measure_file` when the underlying reader yields the bytes of
`source` and then, if `readErr` is true, fails with an I/O error (instead
of reporting end of stream).  The source's `Err(_) => break` arm drops the
partially read buffer and returns the counts accumulated so far: when the
stream does not end in `LF` the trailing fragment was still being read when
the error hit, so it is never counted. -/
def measure_file_err (source : List Nat) (readErr : Bool) : CrlfStat :=
  let cs := chunks source
  let counted := if readErr ∧ source.getLast? ≠ some LF then cs.dropLast else cs
  counted.foldl measureChunk CrlfStat.new

/-- The function `convert_to` when the underlying reader yields the bytes of `source`
and then, if `readErr` is true, fails with an I/O error.  The source's
`Err(_) => break` arm exits the loop and the function returns `Ok(())`, so
a read error still produces a success value carrying the partial output. -/
def convert_to_err (source : List Nat) (readErr : Bool) (ending : LineEnding) :
    Except Unit (List Nat) :=
  let cs := chunks source
  let processed := if readErr ∧ source.getLast? ≠ some LF then cs.dropLast else cs
  Except.ok ((processed.map (convertChunk ending)).flatten)

/-- The spec's chunk-classification rule, from its words: a chunk counts as
CRLF exactly when it "ends with CR LF" (two-byte suffix), else as LF. -/
def endsWithCRLF (c : List Nat) : Bool :=
  match c.reverse with
  | l :: cr :: _ => l == LF && cr == CR
  | _ => false

/-! ### Basic facts about `chunks` -/

theorem chunks_cons_ne_nil (b : Nat) (rest : List Nat) : chunks (b :: rest) ≠ [] := by
  simp only [chunks]
  split
  · simp
  · split <;> simp

theorem chunks_cons_lf (rest : List Nat) : chunks (LF :: rest) = [LF] :: chunks rest := by
  simp [chunks]

theorem chunks_singleton (b : Nat) (hb : b ≠ LF) : chunks [b] = [[b]] := by
  simp [chunks, hb]

theorem chunks_cons_ne (b : Nat) (rest : List Nat) (c : List Nat) (cs : List (List Nat))
    (hb : b ≠ LF) (h : chunks rest = c :: cs) : chunks (b :: rest) = (b :: c) :: cs := by
  simp [chunks, hb, h]

theorem chunks_eq_nil_iff (S : List Nat) : chunks S = [] ↔ S = [] := by
  cases S with
  | nil => simp [chunks]
  | cons b rest => simp [chunks_cons_ne_nil]

theorem flatten_chunks (S : List Nat) : (chunks S).flatten = S := by
  induction S with
  | nil => rfl
  | cons b rest ih =>
    by_cases hb : b = LF
    · subst hb
      simp only [chunks, if_pos rfl, List.flatten_cons]
      simpa using ih
    · simp only [chunks, if_neg hb]
      cases h : chunks rest with
      | nil =>
        have hr : rest = [] := (chunks_eq_nil_iff rest).mp h
        subst hr
        rfl
      | cons c cs =>
        rw [h] at ih
        simp only [List.flatten_cons] at ih ⊢
        simp [← ih]

theorem chunks_wf (S : List Nat) : ∀ c ∈ chunks S, c ≠ [] ∧ LF ∉ c.dropLast := by
  induction S with
  | nil => simp [chunks]
  | cons b rest ih =>
    by_cases hb : b = LF
    · subst hb
      simp only [chunks, if_pos rfl]
      intro c hc
      rcases List.mem_cons.mp hc with h | h
      · subst h; simp
      · exact ih c h
    · simp only [chunks, if_neg hb]
      cases h : chunks rest with
      | nil =>
        intro c hc
        rcases List.mem_singleton.mp hc with rfl
        simp
      | cons c0 cs =>
        intro c hc
        rcases List.mem_cons.mp hc with rfl | hmem
        · have h0 := ih c0 (h ▸ List.mem_cons_self c0 cs)
          refine ⟨by simp, ?_⟩
          cases c0 with
          | nil => exact absurd rfl h0.1
          | cons d ds =>
            rw [List.dropLast_cons₂]
            intro hmem2
            rcases List.mem_cons.mp hmem2 with rfl | h2
            · exact hb rfl
            · exact h0.2 h2
        · exact (ih c (h ▸ List.mem_cons_of_mem c0 hmem))

theorem chunks_dropLast_term (S : List Nat) :
    ∀ c ∈ (chunks S).dropLast, c.getLast? = some LF := by
  induction S with
  | nil => simp [chunks]
  | cons b rest ih =>
    by_cases hb : b = LF
    · subst hb
      rw [chunks_cons_lf]
      cases h : chunks rest with
      | nil => simp
      | cons c0 cs =>
        rw [List.dropLast_cons₂]
        intro c hc
        rcases List.mem_cons.mp hc with rfl | hmem
        · simp
        · exact ih c (by rw [h]; exact hmem)
    · cases h : chunks rest with
      | nil =>
        have hr : rest = [] := (chunks_eq_nil_iff rest).mp h
        subst hr
        rw [chunks_singleton b hb]
        simp
      | cons c0 cs =>
        rw [chunks_cons_ne b rest c0 cs hb h]
        cases cs with
        | nil => simp
        | cons c1 cs1 =>
          rw [List.dropLast_cons₂]
          intro c hc
          rcases List.mem_cons.mp hc with rfl | hmem
          · have h0 : c0.getLast? = some LF := by
              apply ih c0
              rw [h, List.dropLast_cons₂]
              exact List.mem_cons_self c0 _
            cases c0 with
            | nil => simp at h0
            | cons d ds => rw [List.getLast?_cons_cons]; exact h0
          · apply ih c
            rw [h, List.dropLast_cons₂]
            exact List.mem_cons_of_mem c0 hmem

theorem chunks_term_of_last (S : List Nat) (hS : S.getLast? = some LF) :
    ∀ c ∈ chunks S, c.getLast? = some LF := by
  induction S with
  | nil => simp [chunks]
  | cons b rest ih =>
    by_cases hb : b = LF
    · subst hb
      rw [chunks_cons_lf]
      intro c hc
      rcases List.mem_cons.mp hc with rfl | hmem
      · simp
      · cases rest with
        | nil => simp [chunks] at hmem
        | cons p ps =>
          rw [List.getLast?_cons_cons] at hS
          exact ih hS c hmem
    · cases rest with
      | nil =>
        simp only [List.getLast?_singleton, Option.some.injEq] at hS
        exact absurd hS hb
      | cons p ps =>
        rw [List.getLast?_cons_cons] at hS
        cases h : chunks (p :: ps) with
        | nil => exact absurd h (chunks_cons_ne_nil p ps)
        | cons c0 cs =>
          rw [chunks_cons_ne b (p :: ps) c0 cs hb h]
          intro c hc
          rcases List.mem_cons.mp hc with rfl | hmem
          · have h0 : c0.getLast? = some LF := ih hS c0 (h ▸ List.mem_cons_self c0 cs)
            cases c0 with
            | nil => simp at h0
            | cons d ds => rw [List.getLast?_cons_cons]; exact h0
          · exact ih hS c (h ▸ List.mem_cons_of_mem c0 hmem)

theorem chunks_append (P X : List Nat) (hP : P = [] ∨ P.getLast? = some LF) :
    chunks (P ++ X) = chunks P ++ chunks X := by
  induction P with
  | nil => simp [chunks]
  | cons b P ih =>
    rcases hP with h | h
    · exact absurd h (by simp)
    · by_cases hb : b = LF
      · subst hb
        cases P with
        | nil => simp [chunks]
        | cons p ps =>
          rw [List.getLast?_cons_cons] at h
          have ih' := ih (Or.inr h)
          rw [List.cons_append, chunks_cons_lf, chunks_cons_lf, ih', List.cons_append]
      · cases P with
        | nil =>
          simp only [List.getLast?_singleton, Option.some.injEq] at h
          exact absurd h hb
        | cons p ps =>
          rw [List.getLast?_cons_cons] at h
          have ih' := ih (Or.inr h)
          cases hc : chunks (p :: ps) with
          | nil => exact absurd hc (chunks_cons_ne_nil p ps)
          | cons c cs =>
            rw [hc] at ih'
            simp only [List.cons_append] at ih' ⊢
            rw [chunks_cons_ne b (p :: (ps ++ X)) c (cs ++ chunks X) hb ih',
              chunks_cons_ne b (p :: ps) c cs hb hc]
            simp

theorem chunks_of_no_lf (F : List Nat) : F ≠ [] → LF ∉ F → chunks F = [F] := by
  induction F with
  | nil => intro h0 h1; exact absurd rfl h0
  | cons b rest ih =>
    intro h0 h1
    have hb : b ≠ LF := fun hb => h1 (hb ▸ List.mem_cons_self b rest)
    cases rest with
    | nil => exact chunks_singleton b hb
    | cons p ps =>
      have hr := ih (by simp) (fun hm => h1 (List.mem_cons_of_mem b hm))
      exact chunks_cons_ne b (p :: ps) (p :: ps) [] hb hr

theorem chunks_single_term (d : List Nat) : LF ∉ d → chunks (d ++ [LF]) = [d ++ [LF]] := by
  induction d with
  | nil => intro _; simp [chunks]
  | cons b rest ih =>
    intro hd
    have hb : b ≠ LF := fun hb => hd (hb ▸ List.mem_cons_self b rest)
    have hr := ih (fun hm => hd (List.mem_cons_of_mem b hm))
    rw [List.cons_append]
    exact chunks_cons_ne b (rest ++ [LF]) (rest ++ [LF]) [] hb hr

theorem mem_of_mem_dropLast {α : Type} {a : α} {l : List α} (h : a ∈ l.dropLast) : a ∈ l :=
  (List.dropLast_sublist l).subset h

theorem chunks_flatten_blocks (bs : List (List Nat)) :
    (∀ b ∈ bs, b ≠ [] ∧ LF ∉ b.dropLast) →
    (∀ b ∈ bs.dropLast, b.getLast? = some LF) →
    chunks bs.flatten = bs := by
  induction bs with
  | nil => intro _ _; rfl
  | cons b rest ih =>
    intro h1 h2
    have hb := h1 b (List.mem_cons_self b rest)
    cases rest with
    | nil =>
      rw [List.flatten_cons, List.flatten_nil, List.append_nil]
      cases hlast : b.getLast? with
      | none => exact absurd (List.getLast?_eq_none_iff.mp hlast) hb.1
      | some x =>
        by_cases hx : x = LF
        · subst hx
          rcases List.getLast?_eq_some_iff.mp hlast with ⟨ys, rfl⟩
          have hys : LF ∉ ys := by
            rw [List.dropLast_concat] at hb
            exact hb.2
          exact chunks_single_term ys hys
        · apply chunks_of_no_lf b hb.1
          intro hmem
          have hsplit := List.dropLast_concat_getLast hb.1
          rw [← hsplit] at hmem
          rcases List.mem_append.mp hmem with hm | hm
          · exact hb.2 hm
          · have hlf : b.getLast hb.1 = LF := (List.mem_singleton.mp hm).symm
            have hgl := List.getLast?_eq_getLast b hb.1
            rw [hlast, hlf] at hgl
            exact hx (Option.some.injEq .. ▸ hgl : x = LF)
    | cons r rs =>
      have hterm : b.getLast? = some LF := by
        apply h2 b
        rw [List.dropLast_cons₂]
        exact List.mem_cons_self b _
      rcases List.getLast?_eq_some_iff.mp hterm with ⟨ys, rfl⟩
      rw [List.flatten_cons]
      rw [chunks_append (ys ++ [LF]) _ (Or.inr (List.getLast?_concat ys))]
      have hys : LF ∉ ys := by
        rw [List.dropLast_concat] at hb
        exact hb.2
      rw [chunks_single_term ys hys]
      rw [ih (fun x hx => h1 x (List.mem_cons_of_mem _ hx))
        (fun x hx => h2 x (by rw [List.dropLast_cons₂]; exact List.mem_cons_of_mem _ hx))]
      rfl

/-! ### The measuring loop as a count over chunks -/

theorem foldl_measureChunk (cs : List (List Nat)) (a b : Nat) :
    cs.foldl measureChunk ⟨a, b⟩ =
      ⟨a + cs.countP (fun c => !isCrlfChunk c), b + cs.countP isCrlfChunk⟩ := by
  induction cs generalizing a b with
  | nil => simp [List.countP_nil]
  | cons c cs ih =>
    rw [List.foldl_cons]
    by_cases hc : isCrlfChunk c
    · have hm : measureChunk ⟨a, b⟩ c = ⟨a, b + 1⟩ := by simp [measureChunk, hc]
      rw [hm, ih, List.countP_cons, List.countP_cons]
      simp [hc]
      omega
    · have hm : measureChunk ⟨a, b⟩ c = ⟨a + 1, b⟩ := by simp [measureChunk, hc]
      rw [hm, ih, List.countP_cons, List.countP_cons]
      simp [hc]
      omega

theorem measure_file_eq (S : List Nat) :
    CrlfStat.measure_file S =
      ⟨(chunks S).countP (fun c => !isCrlfChunk c), (chunks S).countP isCrlfChunk⟩ := by
  unfold CrlfStat.measure_file CrlfStat.new
  rw [foldl_measureChunk]
  simp

/-! ### The crlf test on terminated chunks -/

theorem isCrlfChunk_concat (d : List Nat) (x : Nat) :
    isCrlfChunk (d ++ [x]) = (d.getLast? == some CR) := by
  cases d with
  | nil => rfl
  | cons e es =>
    have h1 : ((e :: es) ++ [x]).length - 2 = es.length := by simp
    have h2 : ((e :: es) ++ [x])[es.length]? = (e :: es).getLast? := by
      rw [List.getElem?_append_left (by simp), List.getLast?_eq_getElem?]
      simp
    unfold isCrlfChunk
    rw [h1, h2]
    have h3 : decide (2 ≤ ((e :: es) ++ [x]).length) = true := by
      simp [List.length_append]
    rw [h3, Bool.true_and]

theorem endsWithCRLF_concat (d : List Nat) :
    endsWithCRLF (d ++ [LF]) = (d.getLast? == some CR) := by
  rcases List.eq_nil_or_concat d with rfl | ⟨e, x, rfl⟩
  · rfl
  · rw [List.concat_eq_append]
    unfold endsWithCRLF
    have hrev : ((e ++ [x]) ++ [LF]).reverse = LF :: x :: e.reverse := by
      simp
    rw [hrev, List.getLast?_concat]
    simp

/-! ### The converter, chunk by chunk -/

theorem stripEnding_pos (c : List Nat) (h : c.dropLast.getLast? = some CR) :
    stripEnding c = c.dropLast.dropLast := by
  unfold stripEnding
  simp [h]

theorem stripEnding_neg (c : List Nat) (h : c.dropLast.getLast? ≠ some CR) :
    stripEnding c = c.dropLast := by
  unfold stripEnding
  simp [h]

theorem stripEnding_no_lf (c : List Nat) (h : LF ∉ c.dropLast) : LF ∉ stripEnding c := by
  by_cases hc : c.dropLast.getLast? = some CR
  · rw [stripEnding_pos c hc]
    exact fun hm => h (mem_of_mem_dropLast hm)
  · rw [stripEnding_neg c hc]
    exact h

theorem stripEnding_concat_lf (s : List Nat) (hs : s.getLast? ≠ some CR) :
    stripEnding (s ++ [LF]) = s := by
  unfold stripEnding
  rw [List.dropLast_concat]
  exact if_neg hs

theorem stripEnding_concat_crlf (s : List Nat) : stripEnding (s ++ [CR, LF]) = s := by
  have h : s ++ [CR, LF] = (s ++ [CR]) ++ [LF] := by simp
  unfold stripEnding
  rw [h, List.dropLast_concat, if_pos (List.getLast?_concat s), List.dropLast_concat]

theorem convertChunk_term (T : LineEnding) (c : List Nat) (h : c.getLast? = some LF) :
    convertChunk T c = stripEnding c ++ endingBytes T := by
  unfold convertChunk
  exact if_pos h

theorem convertChunk_unterm (T : LineEnding) (c : List Nat) (h : c.getLast? ≠ some LF) :
    convertChunk T c = c := by
  unfold convertChunk
  exact if_neg h

theorem convertChunk_ne_nil (T : LineEnding) (c : List Nat) (h : c ≠ []) :
    convertChunk T c ≠ [] := by
  by_cases hterm : c.getLast? = some LF
  · rw [convertChunk_term T c hterm]
    cases T <;> simp [endingBytes]
  · rw [convertChunk_unterm T c hterm]
    exact h

theorem convertChunk_no_lf_dropLast (T : LineEnding) (c : List Nat)
    (h : LF ∉ c.dropLast) : LF ∉ (convertChunk T c).dropLast := by
  by_cases hterm : c.getLast? = some LF
  · rw [convertChunk_term T c hterm]
    have hstrip := stripEnding_no_lf c h
    cases T with
    | CRLF =>
      have he : stripEnding c ++ endingBytes LineEnding.CRLF =
          (stripEnding c ++ [CR]) ++ [LF] := by simp [endingBytes]
      rw [he, List.dropLast_concat]
      intro hm
      rcases List.mem_append.mp hm with hm | hm
      · exact hstrip hm
      · simp [CR, LF] at hm
    | LF =>
      have he : stripEnding c ++ endingBytes LineEnding.LF =
          stripEnding c ++ [LF] := by simp [endingBytes]
      rw [he, List.dropLast_concat]
      exact hstrip
  · rw [convertChunk_unterm T c hterm]
    exact h

theorem convertChunk_term_last (T : LineEnding) (c : List Nat) (h : c.getLast? = some LF) :
    (convertChunk T c).getLast? = some LF := by
  rw [convertChunk_term T c h]
  cases T with
  | CRLF =>
    have he : stripEnding c ++ endingBytes LineEnding.CRLF =
        (stripEnding c ++ [CR]) ++ [LF] := by simp [endingBytes]
    rw [he, List.getLast?_concat]
  | LF =>
    have he : stripEnding c ++ endingBytes LineEnding.LF =
        stripEnding c ++ [LF] := by simp [endingBytes]
    rw [he, List.getLast?_concat]

/-- The chunks the measuring loop sees on re-reading the converter's output
are exactly the converted chunks of the original input. -/
theorem chunks_convert (S : List Nat) (T : LineEnding) :
    chunks (convert_to S T) = (chunks S).map (convertChunk T) := by
  unfold convert_to
  apply chunks_flatten_blocks
  · intro b hb
    rcases List.mem_map.mp hb with ⟨c, hc, rfl⟩
    have hwf := chunks_wf S c hc
    exact ⟨convertChunk_ne_nil T c hwf.1, convertChunk_no_lf_dropLast T c hwf.2⟩
  · intro b hb
    rw [← List.map_dropLast] at hb
    rcases List.mem_map.mp hb with ⟨c, hc, rfl⟩
    exact convertChunk_term_last T c (chunks_dropLast_term S c hc)

theorem crlf_block_term (s : List Nat) : (s ++ [CR, LF]).getLast? = some LF := by
  rw [show s ++ [CR, LF] = (s ++ [CR]) ++ [LF] from by simp]
  exact List.getLast?_concat _

theorem convertChunk_crlf_crlf (c : List Nat) :
    convertChunk LineEnding.CRLF (convertChunk LineEnding.CRLF c) =
      convertChunk LineEnding.CRLF c := by
  by_cases h : c.getLast? = some LF
  · rw [convertChunk_term _ c h]
    show convertChunk LineEnding.CRLF (stripEnding c ++ [CR, LF]) = stripEnding c ++ [CR, LF]
    rw [convertChunk_term _ _ (crlf_block_term _), stripEnding_concat_crlf]
    rfl
  · rw [convertChunk_unterm _ c h]
    exact convertChunk_unterm _ c h

theorem convertChunk_lf_crlf (c : List Nat) :
    convertChunk LineEnding.LF (convertChunk LineEnding.CRLF c) =
      convertChunk LineEnding.LF c := by
  by_cases h : c.getLast? = some LF
  · rw [convertChunk_term LineEnding.CRLF c h, convertChunk_term LineEnding.LF c h]
    show convertChunk LineEnding.LF (stripEnding c ++ [CR, LF]) =
      stripEnding c ++ endingBytes LineEnding.LF
    rw [convertChunk_term _ _ (crlf_block_term _), stripEnding_concat_crlf]
  · rw [convertChunk_unterm _ c h, convertChunk_unterm _ c h]

theorem convertChunk_lf_lf (c : List Nat) (hs : (stripEnding c).getLast? ≠ some CR) :
    convertChunk LineEnding.LF (convertChunk LineEnding.LF c) =
      convertChunk LineEnding.LF c := by
  by_cases h : c.getLast? = some LF
  · rw [convertChunk_term _ c h]
    show convertChunk LineEnding.LF (stripEnding c ++ [LF]) = stripEnding c ++ [LF]
    rw [convertChunk_term _ _ (List.getLast?_concat _), stripEnding_concat_lf _ hs]
    rfl
  · rw [convertChunk_unterm _ c h]
    exact convertChunk_unterm _ c h

/-! ### Chunk counts against the raw stream -/

theorem chunks_length_count (S : List Nat) :
    (chunks S).length = S.count LF + (if S.getLast? = some LF ∨ S = [] then 0 else 1) := by
  induction S with
  | nil => simp [chunks]
  | cons b rest ih =>
    by_cases hb : b = LF
    · subst hb
      rw [chunks_cons_lf]
      cases rest with
      | nil => simp [chunks]
      | cons p ps =>
        rw [List.length_cons, ih, List.getLast?_cons_cons]
        by_cases hlast : (p :: ps).getLast? = some LF
        · simp only [List.count_cons, hlast, true_or, if_true, beq_self_eq_true, if_pos]
        · simp only [List.count_cons, hlast, List.cons_ne_nil, or_false, if_false,
            beq_self_eq_true, if_pos]
    · cases rest with
      | nil =>
        rw [chunks_singleton b hb]
        simp [List.count_cons, hb, List.getLast?_singleton]
      | cons p ps =>
        cases hc : chunks (p :: ps) with
        | nil => exact absurd hc (chunks_cons_ne_nil p ps)
        | cons c cs =>
          have hlen : (chunks (b :: p :: ps)).length = (chunks (p :: ps)).length := by
            rw [chunks_cons_ne b _ c cs hb hc, hc]
            simp
          rw [hlen, ih, List.getLast?_cons_cons]
          have hcount : (b :: p :: ps).count LF = (p :: ps).count LF := by
            simp [List.count_cons, hb]
          rw [hcount]
          by_cases hlast : (p :: ps).getLast? = some LF
          · simp [hlast]
          · simp [hlast]

theorem chunks_length_le (S : List Nat) : (chunks S).length ≤ S.length := by
  induction S with
  | nil => simp [chunks]
  | cons b rest ih =>
    by_cases hb : b = LF
    · subst hb
      rw [chunks_cons_lf]
      simpa using Nat.add_le_add_right ih 1
    · cases rest with
      | nil => rw [chunks_singleton b hb]; simp
      | cons p ps =>
        cases hc : chunks (p :: ps) with
        | nil => exact absurd hc (chunks_cons_ne_nil p ps)
        | cons c cs =>
          rw [chunks_cons_ne b _ c cs hb hc]
          rw [hc] at ih
          simp only [List.length_cons] at ih ⊢
          omega

theorem countP_split (cs : List (List Nat)) :
    cs.countP (fun c => !isCrlfChunk c) + cs.countP isCrlfChunk = cs.length := by
  induction cs with
  | nil => rfl
  | cons c cs ih =>
    rw [List.countP_cons, List.countP_cons]
    by_cases hc : isCrlfChunk c <;> simp [hc] <;> omega

theorem isCrlfChunk_crlf_block (s : List Nat) : isCrlfChunk (s ++ [CR, LF]) = true := by
  rw [show s ++ [CR, LF] = (s ++ [CR]) ++ [LF] from by simp, isCrlfChunk_concat,
    List.getLast?_concat]
  simp

theorem isCrlfChunk_lf_block (s : List Nat) (hs : s.getLast? ≠ some CR) :
    isCrlfChunk (s ++ [LF]) = false := by
  rw [isCrlfChunk_concat]
  simp only [beq_eq_false_iff_ne, ne_eq]
  exact hs

theorem is_pure_crlf (n : Nat) (hn : n ≠ 0) :
    CrlfStat.is_pure ⟨0, n⟩ = some LineEnding.CRLF := by
  unfold CrlfStat.is_pure
  rw [if_pos ⟨rfl, hn⟩]

theorem is_pure_lf (n : Nat) (hn : n ≠ 0) :
    CrlfStat.is_pure ⟨n, 0⟩ = some LineEnding.LF := by
  unfold CrlfStat.is_pure
  rw [if_neg (fun h => h.2 rfl), if_pos ⟨hn, rfl⟩]

theorem convert_to_def (S : List Nat) (T : LineEnding) :
    convert_to S T = ((chunks S).map (convertChunk T)).flatten := rfl

theorem convert_convert (S : List Nat) (T1 T2 : LineEnding) :
    convert_to (convert_to S T1) T2 =
      ((chunks S).map (fun c => convertChunk T2 (convertChunk T1 c))).flatten := by
  rw [convert_to_def, chunks_convert, List.map_map]
  rfl

/-! ### Claim theorems -/

/-- C1, counterexample: on the input `"a\rb"` (bytes 97 13 98, no `LF` at
all) the single chunk is the final unterminated fragment; it does not end
with the two-byte suffix `CR LF`, yet `measure_file` increments the crlf
counter (the code tests `buf[buf.len()-2] == CR`, not the full suffix), so
the claim's rule "crlf exactly when the chunk ends with CR LF" is false. -/
theorem C1_counterexample :
    chunks [97, 13, 98] = [[97, 13, 98]] ∧
    endsWithCRLF [97, 13, 98] = false ∧
    CrlfStat.measure_file [97, 13, 98] = ⟨0, 1⟩ := by
  decide

/-- C1 (amended): the crlf counter is incremented exactly when the chunk
has at least two bytes and its second-to-last byte is `CR` (the source's
`buf.len() >= 2 && buf[buf.len()-2] == CR`), and the lf counter otherwise;
for every chunk that ends in `LF` this test agrees with the spec's
"ends with the two-byte suffix CR LF" rule, the two differing only on a
final unterminated fragment whose second-to-last byte is `CR`. -/
theorem C1_crlf_counter_rule (S : List Nat) :
    CrlfStat.measure_file S =
      ⟨(chunks S).countP (fun c => !isCrlfChunk c), (chunks S).countP isCrlfChunk⟩ ∧
    ∀ c ∈ chunks S, c.getLast? = some LF → isCrlfChunk c = endsWithCRLF c := by
  refine ⟨measure_file_eq S, ?_⟩
  intro c _ hterm
  rcases List.getLast?_eq_some_iff.mp hterm with ⟨ys, rfl⟩
  rw [isCrlfChunk_concat, endsWithCRLF_concat]

/-- Witness for C1 at the concrete input `"a\r\n"`. -/
theorem C1_crlf_counter_rule_witness :
    CrlfStat.measure_file [97, 13, 10] =
      ⟨(chunks [97, 13, 10]).countP (fun c => !isCrlfChunk c),
        (chunks [97, 13, 10]).countP isCrlfChunk⟩ ∧
    isCrlfChunk [97, 13, 10] = endsWithCRLF [97, 13, 10] := by
  have h := C1_crlf_counter_rule [97, 13, 10]
  exact ⟨h.1, h.2 [97, 13, 10] (by decide) (by decide)⟩

/-- C2, counterexample: both failure modes of the claim as stated.  With
`S = "a\nc"` (one terminated line plus a fragment) converting to CRLF
yields `"a\r\nc"`, which measures as mixed (`crlf = 1, lf = 1`), not pure
CRLF.  With `S = "x\r\r\n"` (one terminated line, content ending in `CR`)
converting to LF yields `"x\r\n"`, which measures as pure CRLF, not pure
LF. -/
theorem C2_counterexample :
    (CrlfStat.measure_file (convert_to [97, 10, 99] LineEnding.CRLF)).is_pure ≠
      some LineEnding.CRLF ∧
    (CrlfStat.measure_file (convert_to [120, 13, 13, 10] LineEnding.LF)).is_pure ≠
      some LineEnding.LF := by
  decide

/-- C2 (amended): if `S` is nonempty and ends with `LF` (every line is
terminated, no trailing fragment), then converting to CRLF and measuring
classifies as pure CRLF; and if additionally no line's stripped content
ends with a `CR` byte, converting to LF and measuring classifies as pure
LF. -/
theorem C2_convert_measure_classify (S : List Nat) (h0 : S ≠ [])
    (h1 : S.getLast? = some LF) :
    (CrlfStat.measure_file (convert_to S LineEnding.CRLF)).is_pure =
      some LineEnding.CRLF ∧
    ((∀ c ∈ chunks S, (stripEnding c).getLast? ≠ some CR) →
      (CrlfStat.measure_file (convert_to S LineEnding.LF)).is_pure =
        some LineEnding.LF) := by
  have hterm := chunks_term_of_last S h1
  have hlen : (chunks S).length ≠ 0 := by
    intro h
    exact h0 ((chunks_eq_nil_iff S).mp (List.length_eq_zero.mp h))
  constructor
  · rw [measure_file_eq, chunks_convert]
    have hall : ∀ b ∈ (chunks S).map (convertChunk LineEnding.CRLF),
        isCrlfChunk b = true := by
      intro b hb
      rcases List.mem_map.mp hb with ⟨c, hc, rfl⟩
      rw [convertChunk_term _ c (hterm c hc)]
      exact isCrlfChunk_crlf_block (stripEnding c)
    rw [List.countP_eq_length.mpr hall,
      List.countP_eq_zero.mpr (fun b hb => by simp [hall b hb]),
      List.length_map]
    exact is_pure_crlf _ hlen
  · intro hnc
    rw [measure_file_eq, chunks_convert]
    have hall : ∀ b ∈ (chunks S).map (convertChunk LineEnding.LF),
        isCrlfChunk b = false := by
      intro b hb
      rcases List.mem_map.mp hb with ⟨c, hc, rfl⟩
      rw [convertChunk_term _ c (hterm c hc)]
      exact isCrlfChunk_lf_block (stripEnding c) (hnc c hc)
    have hz : ((chunks S).map (convertChunk LineEnding.LF)).countP isCrlfChunk = 0 :=
      List.countP_eq_zero.mpr (fun b hb => by simp [hall b hb])
    have hl : ((chunks S).map (convertChunk LineEnding.LF)).countP
        (fun c => !isCrlfChunk c) = ((chunks S).map (convertChunk LineEnding.LF)).length :=
      List.countP_eq_length.mpr (fun b hb => by simp [hall b hb])
    rw [hz, hl, List.length_map]
    exact is_pure_lf _ hlen

/-- Witness for C2 at the concrete input `"a\r\n"`. -/
theorem C2_convert_measure_classify_witness :
    (CrlfStat.measure_file (convert_to [97, 13, 10] LineEnding.CRLF)).is_pure =
      some LineEnding.CRLF ∧
    (CrlfStat.measure_file (convert_to [97, 13, 10] LineEnding.LF)).is_pure =
      some LineEnding.LF := by
  have h := C2_convert_measure_classify [97, 13, 10] (by decide) (by decide)
  exact ⟨h.1, h.2 (by decide)⟩

/-- C3, counterexample: converting `"x\r\r\n"` to LF once gives `"x\r\n"`
(only the final `CR` before the `LF` is stripped); converting that output
to LF again strips the remaining `CR` and gives `"x\n"`, so conversion to
LF is not idempotent. -/
theorem C3_counterexample :
    convert_to (convert_to [120, 13, 13, 10] LineEnding.LF) LineEnding.LF ≠
      convert_to [120, 13, 13, 10] LineEnding.LF := by
  decide

/-- C3 (amended): conversion to CRLF is idempotent for every input; and
conversion to LF is idempotent provided no line's stripped content ends
with a `CR` byte. -/
theorem C3_convert_idempotent (S : List Nat) :
    convert_to (convert_to S LineEnding.CRLF) LineEnding.CRLF =
      convert_to S LineEnding.CRLF ∧
    ((∀ c ∈ chunks S, (stripEnding c).getLast? ≠ some CR) →
      convert_to (convert_to S LineEnding.LF) LineEnding.LF =
        convert_to S LineEnding.LF) := by
  constructor
  · rw [convert_convert, convert_to_def]
    congr 1
    exact List.map_congr_left (fun c _ => convertChunk_crlf_crlf c)
  · intro hnc
    rw [convert_convert, convert_to_def]
    congr 1
    exact List.map_congr_left (fun c hc => convertChunk_lf_lf c (hnc c hc))

/-- Witness for C3 at the concrete input `"a\r\nc"`. -/
theorem C3_convert_idempotent_witness :
    convert_to (convert_to [97, 13, 10, 99] LineEnding.CRLF) LineEnding.CRLF =
      convert_to [97, 13, 10, 99] LineEnding.CRLF ∧
    convert_to (convert_to [97, 13, 10, 99] LineEnding.LF) LineEnding.LF =
      convert_to [97, 13, 10, 99] LineEnding.LF := by
  have h := C3_convert_idempotent [97, 13, 10, 99]
  exact ⟨h.1, h.2 (by decide)⟩

/-- C4 (confirmed): converting any input to CRLF and then converting that
output to LF yields exactly the bytes of converting the input to LF
directly, for every input, mixed or not. -/
theorem C4_crlf_then_lf_roundtrip (A : List Nat) :
    convert_to (convert_to A LineEnding.CRLF) LineEnding.LF =
      convert_to A LineEnding.LF := by
  rw [convert_convert, convert_to_def]
  congr 1
  exact List.map_congr_left (fun c _ => convertChunk_lf_crlf c)

/-- C5: on a reader that yields `"a\nb"` and then fails, `measure_file`
silently breaks out of its loop (`Err(_) => break`) and returns partial
counts `{lf: 1, crlf: 0}` — its return type cannot even carry an error —
while `convert_to` likewise breaks on the read error and terminates with
success (`Ok`) after writing only the partial output `"a\n"`.  Read
failures are therefore swallowed, contradicting the claim; only sink
write failures are propagated (`dest.write(..)?`). -/
theorem C5_read_error_swallowed :
    measure_file_err [97, 10, 98] true = ⟨1, 0⟩ ∧
    convert_to_err [97, 10, 98] true LineEnding.LF = Except.ok [97, 10] ∧
    measure_file_err [97, 10, 98] false = ⟨2, 0⟩ := by
  refine ⟨by decide, rfl, by decide⟩

/-- C6 (confirmed): `is_pure` returns `LF` iff `crlf = 0` and `lf > 0`,
returns `CRLF` iff `lf = 0` and `crlf > 0`, and returns no classification
in every other case, i.e. exactly when both counters are zero or both are
positive. -/
theorem C6_is_pure_classification (s : CrlfStat) :
    (s.is_pure = some LineEnding.LF ↔ (s.crlf = 0 ∧ 0 < s.lf)) ∧
    (s.is_pure = some LineEnding.CRLF ↔ (s.lf = 0 ∧ 0 < s.crlf)) ∧
    (s.is_pure = none ↔ ((s.lf = 0 ∧ s.crlf = 0) ∨ (0 < s.lf ∧ 0 < s.crlf))) := by
  obtain ⟨a, b⟩ := s
  unfold CrlfStat.is_pure
  by_cases h1 : a = 0 ∧ b ≠ 0
  · rw [if_pos h1]
    refine ⟨?_, ?_, ?_⟩ <;> simp_all <;> omega
  · rw [if_neg h1]
    by_cases h2 : a ≠ 0 ∧ b = 0
    · rw [if_pos h2]
      refine ⟨?_, ?_, ?_⟩ <;> simp_all <;> omega
    · rw [if_neg h2]
      refine ⟨?_, ?_, ?_⟩ <;> simp_all <;> omega

/-- C7 (confirmed): on an input whose last line is unterminated — written
`P ++ F` where `P` is the (possibly empty) terminated part ending in `LF`
and `F` is the nonempty `LF`-free trailing fragment — conversion to any
target copies the fragment through verbatim after the converted prefix and
appends no terminator, so the output too ends without a terminator. -/
theorem C7_fragment_preserved (T : LineEnding) (P F : List Nat)
    (hP : P = [] ∨ P.getLast? = some LF) (hF0 : F ≠ []) (hF1 : LF ∉ F) :
    convert_to (P ++ F) T = convert_to P T ++ F ∧
    (convert_to (P ++ F) T).getLast? ≠ some LF := by
  have hchunks : chunks (P ++ F) = chunks P ++ [F] := by
    rw [chunks_append P F hP, chunks_of_no_lf F hF0 hF1]
  have hFun : convertChunk T F = F :=
    convertChunk_unterm T F (fun hlast => hF1 (List.mem_of_getLast?_eq_some hlast))
  have hmain : convert_to (P ++ F) T = convert_to P T ++ F := by
    rw [convert_to_def, hchunks, List.map_append, List.flatten_append, convert_to_def]
    simp [hFun]
  refine ⟨hmain, ?_⟩
  rw [hmain, List.getLast?_append]
  cases hx : F.getLast? with
  | none => exact absurd (List.getLast?_eq_none_iff.mp hx) hF0
  | some x =>
    have hxF : x ∈ F := List.mem_of_getLast?_eq_some hx
    simp only [Option.or_some, ne_eq, Option.some.injEq]
    exact fun hlf => hF1 (hlf ▸ hxF)

/-- Witness for C7: `"a\n" ++ "c"` converted to LF. -/
theorem C7_fragment_preserved_witness :
    convert_to ([97, 10] ++ [99]) LineEnding.LF =
      convert_to [97, 10] LineEnding.LF ++ [99] ∧
    (convert_to ([97, 10] ++ [99]) LineEnding.LF).getLast? ≠ some LF :=
  C7_fragment_preserved LineEnding.LF [97, 10] [99] (Or.inr (by decide))
    (by decide) (by decide)

/-- C8 (confirmed): `lf + crlf` equals the number of `LF` bytes in the
stream (each terminates one counted line), plus one more when the stream
ends in a nonempty unterminated fragment. -/
theorem C8_counter_sum (S : List Nat) :
    (CrlfStat.measure_file S).lf + (CrlfStat.measure_file S).crlf =
      S.count LF + (if S.getLast? = some LF ∨ S = [] then 0 else 1) := by
  rw [measure_file_eq]
  show (chunks S).countP (fun c => !isCrlfChunk c) + (chunks S).countP isCrlfChunk = _
  rw [countP_split, chunks_length_count]

/-- C9 (confirmed): measuring `"a\r\nb\nc"` yields `crlf = 1` and `lf = 2`
(the chunk `"b\n"` and the trailing fragment `"c"` each count as lf), and
converting it to LF yields exactly `"a\nb\nc"`, no trailing newline. -/
theorem C9_concrete_scenario :
    CrlfStat.measure_file [97, 13, 10, 98, 10, 99] = ⟨2, 1⟩ ∧
    convert_to [97, 13, 10, 98, 10, 99] LineEnding.LF = [97, 10, 98, 10, 99] := by
  decide

/-- C10 (confirmed): the `read_until` loop of both functions makes
progress and terminates on every finite input: the chunks partition the
input exactly, every read that continues the loop consumes at least one
byte, and hence the loop body runs at most `S.length` times (plus the one
final zero-byte read that exits). -/
theorem C10_chunk_progress (S : List Nat) :
    (chunks S).flatten = S ∧ (∀ c ∈ chunks S, 1 ≤ c.length) ∧
    (chunks S).length ≤ S.length := by
  refine ⟨flatten_chunks S, ?_, chunks_length_le S⟩
  intro c hc
  have hne := (chunks_wf S c hc).1
  cases c with
  | nil => exact absurd rfl hne
  | cons d ds => simp

/-- Witness for C10 at the concrete input `"a\nb"`. -/
theorem C10_chunk_progress_witness :
    (chunks [97, 10, 98]).flatten = [97, 10, 98] ∧
    1 ≤ ([97, 10] : List Nat).length ∧
    (chunks [97, 10, 98]).length ≤ ([97, 10, 98] : List Nat).length := by
  have h := C10_chunk_progress [97, 10, 98]
  exact ⟨h.1, h.2.1 [97, 10] (by decide), h.2.2⟩

end Crlf
